import Mathlib

/-!
Verification development for the response-parsing and file-materialization
core of `claude_code_generator.py`.

Python strings are modelled as `List Char` (one element per code point).
Path semantics (`pathlib.Path.name`, `/`-joining) are modelled after the
Windows flavour of `pathlib` — both `/` and `\` are separators and
drive-letter prefixes are recognized — matching the code's explicit
drive-letter handling in `write_file`; the POSIX flavour agrees on all
inputs that use only `/` separators.
-/

set_option maxRecDepth 4000

/-- Python strings as lists of characters. -/
abbrev Str := List Char

/-- The apostrophe character (written via its code point). -/
def apos : Char := Char.ofNat 39

/-- Whitespace as stripped by Python `str.strip()` (ASCII subset). -/
def pySpace (c : Char) : Bool :=
  c = ' ' || c = '\t' || c = '\n' || c = '\r' || c = '\x0b' || c = '\x0c'

/-- Python `s.strip()`: drop leading and trailing whitespace. -/
def pystrip (s : Str) : Str :=
  ((s.dropWhile pySpace).reverse.dropWhile pySpace).reverse

/-- `isPre p s`: `p` is a leading segment of `s`. -/
def isPre [DecidableEq α] : List α → List α → Bool
  | [], _ => true
  | _ :: _, [] => false
  | a :: as, b :: bs => if a = b then isPre as bs else false

/-- Python `p in s`: `p` occurs contiguously somewhere in `s`. -/
def hasSub [DecidableEq α] (p : List α) : List α → Bool
  | [] => isPre p []
  | a :: s => isPre p (a :: s) || hasSub p s

/-- Python `s.startswith(p)`. -/
def startsW (p s : Str) : Bool := isPre p s

/-- Python `s.endswith(p)`. -/
def endsW (p s : Str) : Bool := isPre p.reverse s.reverse

/-- Membership of a single character. -/
def hasChar (c : Char) : Str → Bool
  | [] => false
  | a :: s => a = c || hasChar c s

/-- Python `s.lower()` (ASCII letters). -/
def toLowerS (s : Str) : Str := s.map Char.toLower

/-- Fuel-driven engine for `replaceAll` (the fuel is the string length,
which bounds the number of steps). -/
def replFuel (p r : Str) : Nat → Str → Str
  | _, [] => []
  | 0, s => s
  | n + 1, c :: cs =>
    if isPre p (c :: cs) && !p.isEmpty then
      r ++ replFuel p r n (List.drop (p.length - 1) cs)
    else
      c :: replFuel p r n cs

/-- Python `s.replace(p, r)`: replace every (leftmost, non-overlapping)
occurrence of `p` in `s` by `r`. -/
def replaceAll (p r s : Str) : Str := replFuel p r s.length s

/-- Split on every character satisfying `p`, keeping empty pieces —
the semantics of Python `s.split(sep)` generalized to a separator set. -/
def splitP (p : Char → Bool) : Str → List Str
  | [] => [[]]
  | c :: cs =>
    if p c then [] :: splitP p cs
    else
      match splitP p cs with
      | [] => [[c]]
      | t :: ts => (c :: t) :: ts

/-- Python `s.split(sep)` for a one-character separator. -/
def splitC (sep : Char) : Str → List Str := splitP (fun c => decide (c = sep))

/-- Last element of a list, with a default. -/
def lastD (l : List α) (d : α) : α := l.getLast?.getD d

/-- Path-separator characters (Windows flavour: `/` and `\`). -/
def isSep (c : Char) : Bool := c = '/' || c = '\\'

/-- Drive-letter test from `write_file`:
`len(file_path) > 1 and file_path[1] == ":"`. -/
def driveLike : Str → Bool
  | _ :: b :: _ => decide (b = ':')
  | _ => false

/-- `pathlib.Path(s).name`: drop a drive prefix, split on separators,
drop empty and `.` components, and take the last component (empty when
none remain). -/
def pathName (s : Str) : Str :=
  let s2 : Str :=
    match s with
    | _ :: b :: rest => if b = ':' then rest else s
    | _ => s
  lastD ((splitP isSep s2).filter
    (fun c => decide (c ≠ ([] : Str)) && decide (c ≠ ".".data))) []

/-- The components of a path string as `pathlib` parses them
(separators split, empty and `.` parts dropped). -/
def pathSegs (s : Str) : List Str :=
  (splitP isSep s).filter (fun c => decide (c ≠ ([] : Str)) && decide (c ≠ ".".data))

/-- Whether a path string begins with a separator (a rooted path). -/
def headSep : Str → Bool
  | [] => false
  | c :: _ => isSep c

/-- `output_dir / s` as performed by `pathlib`: a rooted right operand
replaces the root, otherwise the components are appended. -/
def joinPath (root : List Str) (s : Str) : List Str :=
  if headSep s then pathSegs s else root ++ pathSegs s

/-- One step of lexical `..`-resolution as the operating system performs
it when the path is used. -/
def resolveStep (acc : List Str) (seg : Str) : List Str :=
  if seg = "..".data then
    match acc.getLast? with
    | some l => if l = "..".data then acc ++ [seg] else acc.dropLast
    | none => acc ++ [seg]
  else acc ++ [seg]

/-- Lexical resolution of `..` segments in a segment list. -/
def resolve (segs : List Str) : List Str := segs.foldl resolveStep []

/-- `full` resolves to a location at or below `root`. -/
def underRoot (root full : List Str) : Bool :=
  isPre (resolve root) (resolve full)

/-- The path-cleaning step of `write_file`
(`strip`, remove `"` and `'`, collapse absolute paths to their basename). -/
def sanitizeFilePath (fp0 : Str) : Str :=
  let fp := ((pystrip fp0).filter (fun c => decide (c ≠ '"'))).filter
    (fun c => decide (c ≠ apos))
  if startsW "/".data fp || driveLike fp then pathName fp else fp

/-- The full on-disk path targeted by `write_file root fp`. -/
def writeFullPath (root : List Str) (fp : Str) : List Str :=
  joinPath root (sanitizeFilePath fp)

/-- Ordered association-list lookup (a Python `dict` keyed by `k`). -/
def lookA [DecidableEq κ] (k : κ) : List (κ × β) → Option β
  | [] => none
  | (k1, v) :: rest => if k1 = k then some v else lookA k rest

/-- Ordered association-list update: Python `d[k] = v` keeps the insertion
position of an existing key and appends a new key at the end. -/
def setA [DecidableEq κ] (k : κ) (v : β) : List (κ × β) → List (κ × β)
  | [] => [(k, v)]
  | (k1, v1) :: rest => if k1 = k then (k, v) :: rest else (k1, v1) :: setA k v rest

/-- Visible state touched by `write_file`: the files on disk (path
components mapped to content) and the file registry. -/
structure WState where
  fs : List (List Str × Str)
  registry : List (Str × Str)
deriving DecidableEq

/-- Outcome of the operating-system calls inside `write_file`'s `try`
block: either they all succeed, or one of them raises with message `m`,
leaving the disk in some state `fsAfter` (the registry update comes after
the write, so it never runs on the failing path). -/
inductive IOCase where
  | ok : IOCase
  | fail (m : Str) (fsAfter : List (List Str × Str)) : IOCase
deriving DecidableEq

/-- `f"File {file_path} already exists with same content, skipping."` -/
def skipMsg (fp : Str) : Str :=
  "File ".data ++ fp ++ " already exists with same content, skipping.".data

/-- `f"Successfully wrote file: {file_path}"` -/
def okMsg (fp : Str) : Str := "Successfully wrote file: ".data ++ fp

/-- `f"Error writing file {file_path}: {str(e)}"` -/
def errMsg (fp m : Str) : Str :=
  "Error writing file ".data ++ fp ++ ": ".data ++ m

/-- `f"File created: {len(code)} characters"` -/
def sizeSummary (code : Str) : Str :=
  "File created: ".data ++ (Nat.repr code.length).data ++ " characters".data

/-- `write_file` of the generator: clean the path, join it to the output
root, and on success either skip (file already holds `code`) or write and
register. The third component counts completed whole-file disk writes. -/
def writeFile (root : List Str) (io : IOCase) (st : WState) (fp0 code : Str) :
    WState × (Bool × Str) × Nat :=
  let fp := sanitizeFilePath fp0
  let full := joinPath root fp
  match io with
  | .fail m fsAfter => (⟨fsAfter, st.registry⟩, (false, errMsg fp m), 0)
  | .ok =>
    match lookA full st.fs with
    | some existing =>
      if existing = code then
        (st, (true, skipMsg fp), 0)
      else
        (⟨setA full code st.fs, setA fp (sizeSummary code) st.registry⟩,
          (true, okMsg fp), 1)
    | none =>
      (⟨setA full code st.fs, setA fp (sizeSummary code) st.registry⟩,
        (true, okMsg fp), 1)

/-- The skip test of `create_directories`:
`"." in dir_path.split("/")[-1] or "." in dir_path.split("\\")[-1]`. -/
def dirSkip (dp : Str) : Bool :=
  hasChar '.' (lastD (splitC '/' dp) []) || hasChar '.' (lastD (splitC '\\' dp) [])

/-- The cleaning step shared by `write_file` and `create_directories`:
`strip()` then removal of `"` and `'`. -/
def cleanQuotes (s : Str) : Str :=
  ((pystrip s).filter (fun c => decide (c ≠ '"'))).filter (fun c => decide (c ≠ apos))

/-- `create_directories` of the generator: per candidate, clean, skip when
a dot appears after the last `/` or after the last `\`, otherwise create.
Returns the messages and the full paths passed to `os.makedirs`. -/
def create_directories (root : List Str) : List Str → List Str × List (List Str)
  | [] => ([], [])
  | d :: ds =>
    let dp := cleanQuotes d
    let rest := create_directories root ds
    if dirSkip dp then rest
    else (("Created directory: ".data ++ dp) :: rest.1, joinPath root dp :: rest.2)

/-- The final path segment of a candidate in the sense of the
specification: the part after the last separator of either kind.
(Modelled from the spec's words, for comparison with `dirSkip`.) -/
def specFinalSegment (dp : Str) : Str := lastD (splitP isSep dp) []

/-- `"\n".join(strs)`. -/
def joinSep : List Str → Str
  | [] => []
  | [x] => x
  | x :: xs => x ++ '\n' :: joinSep xs

/-- The file listing rendered into the continuation prompt:
`"\n".join(f"{path}: {info}" for ...)`. -/
def filesInfo (reg : List (Str × Str)) : Str :=
  joinSep (reg.map (fun e => e.1 ++ ": ".data ++ e.2))

/-- Fixed text of the continuation-prompt template before the listing. -/
def promptHead : Str :=
  "\nI".data ++ [apos] ++ "ve generated the following files so far:\n".data

/-- Fixed text of the continuation-prompt template after the listing. -/
def promptTail : Str :=
  "\n\nPlease continue the code generation for the project. Focus on:\n1. Implementing any missing functionality\n2. Improving existing code if needed\n3. Adding any necessary files that haven".data
  ++ [apos]
  ++ "t been created yet\n4. Ensuring everything works together cohesively\n\nYou can refer to the files I".data
  ++ [apos]
  ++ "ve already created. Please provide the next set of files or updates.\n".data

/-- `generate_next_prompt`: render the registry into the fixed template. -/
def generate_next_prompt (reg : List (Str × Str)) : Str :=
  promptHead ++ filesInfo reg ++ promptTail

/-- The first replace target of `extract_file_structure`. The source
literal is mojibake: the UTF-8 bytes of `└── ` re-decoded through a wrong
codec, giving the ten-character string `‚îî‚îÄ‚îÄ ` (U+201A U+00EE
U+00EE, U+201A U+00EE U+00C4, U+201A U+00EE U+00C4, space) — not the
box-drawing connector itself. -/
def glyph1 : Str := "‚îî‚îÄ‚îÄ ".data

/-- The second replace target, the mojibake form of `├── `
(with U+00FA in place of the second component). -/
def glyph2 : Str := "‚îú‚îÄ‚îÄ ".data

/-- The third replace target, the mojibake form of `│   `
(U+201A U+00EE U+00C7 followed by three spaces). -/
def glyph3 : Str := "‚îÇ   ".data

/-- The line-cleaning step of `extract_file_structure`: `strip()` followed
by the three `replace(..., "")` calls on the (mojibake) targets above. -/
def cleanLine (line : Str) : Str :=
  replaceAll glyph3 [] (replaceAll glyph2 [] (replaceAll glyph1 [] (pystrip line)))

/-- Marker test of `extract_file_structure`: the lowercased line contains
one of the structure-section headers. -/
def structMarker (line : Str) : Bool :=
  let lower := toLowerS line
  hasSub "directory structure".data lower || hasSub "file structure".data lower ||
    hasSub "project structure".data lower

/-- One line of `extract_file_structure`: update the in-section flag and
possibly emit a directory candidate. -/
def efsStep (st : Bool) (line : Str) : Bool × Option Str :=
  if structMarker line then (true, none)
  else
    let st2 := if st && (decide (pystrip line = ([] : Str)) || hasSub "##".data line)
      then false else st
    if st2 then
      let clean := cleanLine line
      if hasChar '/' clean || hasChar '\\' clean then (st2, some clean)
      else if !hasChar '.' clean && decide (clean ≠ ([] : Str)) &&
          !startsW "-".data clean then (st2, some clean)
      else (st2, none)
    else (st2, none)

/-- The line scan of `extract_file_structure` over a list of lines. -/
def efsGo (st : Bool) : List Str → List Str
  | [] => []
  | l :: ls => ((efsStep st l).2).toList ++ efsGo (efsStep st l).1 ls

/-- `extract_file_structure` of the generator. -/
def extract_file_structure (text : Str) : List Str :=
  efsGo false (splitC '\n' text)

/-- The fence delimiter string of `parse_code_blocks`. -/
def tbt : Str := "```".data

/-- A parsed code block: the `file_path` / `code` dictionary built by
`parse_code_blocks`. -/
structure CodeBlock where
  file_path : Option Str
  code : Str
deriving DecidableEq

/-- Scanner state of `parse_code_blocks`. -/
structure PBState where
  inBlock : Bool
  curPath : Option Str
  curCode : Str
  hintLine : Str
deriving DecidableEq

/-- The file-path-hint test of `parse_code_blocks` (applied to lines
outside blocks that are not fence lines). -/
def hintCond (line : Str) : Bool :=
  hasSub "File:".data line || endsW ".py".data line || endsW ".js".data line ||
    endsW ".html".data line || endsW ".css".data line || endsW ".json".data line ||
    (hasChar '/' line && hasChar '.' (lastD (splitC '/' line) []))

/-- Language-tag to extension mapping for synthesized default names. -/
def defaultExt (lm : Str) : Str :=
  if lm = "python".data then "py".data
  else if lm = "javascript".data then "js".data
  else lm

/-- Python truthiness of `current_block["file_path"]`. -/
def truthyPath : Option Str → Bool
  | none => false
  | some p => decide (p ≠ ([] : Str))

/-- One line of `parse_code_blocks`: the four-branch `if`/`elif` chain of
the source, returning the next state and a completed block when the line
closes one that carries a path and non-blank content. -/
def pbStep (st : PBState) (line : Str) : PBState × Option CodeBlock :=
  if !st.inBlock && !hasSub tbt line && hintCond line then
    (⟨st.inBlock, st.curPath, st.curCode, pystrip (replaceAll "File:".data [] line)⟩,
      none)
  else if hasSub tbt line && !st.inBlock then
    let lm := pystrip (replaceAll tbt [] line)
    let newPath :=
      if decide (st.hintLine ≠ ([] : Str)) then some st.hintLine
      else if decide (lm ≠ ([] : Str)) then some ("default.".data ++ defaultExt lm)
      else st.curPath
    (⟨true, newPath, st.curCode, []⟩, none)
  else if hasSub tbt line && st.inBlock then
    let out :=
      if truthyPath st.curPath && decide (pystrip st.curCode ≠ ([] : Str)) then
        some ⟨st.curPath, st.curCode⟩
      else none
    (⟨false, none, [], st.hintLine⟩, out)
  else if st.inBlock then
    (⟨st.inBlock, st.curPath, st.curCode ++ line ++ ['\n'], st.hintLine⟩, none)
  else (st, none)

/-- The line scan of `parse_code_blocks` over a list of lines. -/
def pbGo (st : PBState) : List Str → List CodeBlock
  | [] => []
  | l :: ls => ((pbStep st l).2).toList ++ pbGo (pbStep st l).1 ls

/-- The initial scanner state of `parse_code_blocks`. -/
def pbInit : PBState := ⟨false, none, [], []⟩

/-- `parse_code_blocks` of the generator. -/
def parse_code_blocks (text : Str) : List CodeBlock :=
  pbGo pbInit (splitC '\n' text)

/-- The scan of `parse_code_blocks` instrumented with the index of the
line at which each block is completed and appended to the output. -/
def pbGoIdx (i : Nat) (st : PBState) : List Str → List (Nat × CodeBlock)
  | [] => []
  | l :: ls =>
    (((pbStep st l).2).toList.map (fun b => (i, b))) ++ pbGoIdx (i + 1) (pbStep st l).1 ls

/-- `parse_code_blocks` with each block tagged by the index of the line
that completed it. -/
def parseCodeBlocksIdx (text : Str) : List (Nat × CodeBlock) :=
  pbGoIdx 0 pbInit (splitC '\n' text)

/-- Concatenate lines, appending a newline to each — the shape in which
`parse_code_blocks` accumulates a block's content. -/
def joinNL : List Str → Str
  | [] => []
  | l :: ls => l ++ '\n' :: joinNL ls

theorem isPre_append_self [DecidableEq α] (l m : List α) : isPre l (l ++ m) = true := by
  induction l with
  | nil => rfl
  | cons a as ih => simp [isPre, ih]

theorem lookA_setA_self [DecidableEq κ] (k : κ) (v : β) (m : List (κ × β)) :
    lookA k (setA k v m) = some v := by
  induction m with
  | nil => simp [setA, lookA]
  | cons e rest ih =>
    obtain ⟨k1, v1⟩ := e
    by_cases h : k1 = k
    · simp [setA, lookA, h]
    · simp [setA, lookA, h, ih]

theorem foldl_resolveStep_of_no_dotdot (segs : List Str) :
    ∀ acc : List Str, (∀ x ∈ segs, x ≠ "..".data) →
      List.foldl resolveStep acc segs = acc ++ segs := by
  induction segs with
  | nil => intro acc _; simp
  | cons s rest ih =>
    intro acc h
    have hs : s ≠ "..".data := h s (List.mem_cons_self s rest)
    have hrest : ∀ x ∈ rest, x ≠ "..".data := fun x hx => h x (List.mem_cons_of_mem s hx)
    simp only [List.foldl_cons, resolveStep, if_neg hs, ih (acc ++ [s]) hrest,
      List.append_assoc, List.singleton_append]

theorem resolve_append_no_dotdot (root segs : List Str)
    (hroot : resolve root = root) (h : ∀ x ∈ segs, x ≠ "..".data) :
    resolve (root ++ segs) = root ++ segs := by
  unfold resolve at *
  rw [List.foldl_append, hroot, foldl_resolveStep_of_no_dotdot segs root h]

/-- C1: the claim that every filesystem entry created by the core resolves
under the output root fails: `write_file` leaves `..` segments intact, so
`write_file "../x.txt"` targets a path outside the root, and
`create_directories` performs no absolute-path sanitization at all, so the
candidate `/abs` (which its dot-filter does not skip) is created at the
filesystem root. -/
theorem C1_cex :
    underRoot ["generated_project".data]
      (writeFullPath ["generated_project".data] "../x.txt".data) = false ∧
    dirSkip (cleanQuotes "/abs".data) = false ∧
    (create_directories ["generated_project".data] ["/abs".data]).2 = [["abs".data]] ∧
    underRoot ["generated_project".data] [["abs".data]].headI = false := by
  decide

/-- C1 (amended): for `write_file`, absolute raw paths are collapsed to
their basename, and every raw path whose sanitized form contains no `..`
segment and does not begin with a path separator resolves under the
configured output root; raw paths with `..` segments, and absolute or
`..`-carrying directory candidates of `create_directories`, are not
protected and can resolve outside the root. -/
theorem C1_write_file_under_root (root : List Str) (fp : Str)
    (hroot : resolve root = root)
    (h1 : ∀ x ∈ pathSegs (sanitizeFilePath fp), x ≠ "..".data)
    (h2 : headSep (sanitizeFilePath fp) = false) :
    underRoot root (writeFullPath root fp) = true := by
  unfold writeFullPath joinPath
  rw [h2]
  simp only [Bool.false_eq_true, if_false, underRoot, hroot,
    resolve_append_no_dotdot root (pathSegs (sanitizeFilePath fp)) hroot h1]
  exact isPre_append_self root (pathSegs (sanitizeFilePath fp))

/-- Witness for the amended C1 at a concrete relative path. -/
theorem C1_write_file_under_root_witness :
    resolve ["generated_project".data] = ["generated_project".data] ∧
    (∀ x ∈ pathSegs (sanitizeFilePath "src/app.py".data), x ≠ "..".data) ∧
    headSep (sanitizeFilePath "src/app.py".data) = false ∧
    underRoot ["generated_project".data]
      (writeFullPath ["generated_project".data] "src/app.py".data) = true :=
  ⟨by decide, by decide, by decide,
    C1_write_file_under_root ["generated_project".data] "src/app.py".data
      (by decide) (by decide) (by decide)⟩

/-- C2: path sanitization collapses absolute inputs to their basename:
`/etc/passwd` becomes `passwd` and the drive-letter input `C:\x\y.txt`
becomes `y.txt`. -/
theorem C2_absolute_collapse :
    sanitizeFilePath "/etc/passwd".data = "passwd".data ∧
    sanitizeFilePath "C:\\x\\y.txt".data = "y.txt".data := by
  decide

/-- C3: the claim that `create_directories` skips exactly the candidates
whose final path segment contains a dot fails on mixed separators: the
final path segment of `src.dir/sub` is `sub`, which contains no dot, yet
the candidate is skipped (no directory is created and no message is
produced), because the code also tests the text after the last backslash,
which here is the whole string `src.dir/sub`. -/
theorem C3_cex :
    hasChar '.' (specFinalSegment (cleanQuotes "src.dir/sub".data)) = false ∧
    create_directories ["out".data] ["src.dir/sub".data] = ([], []) := by
  decide

/-- C3 (amended): `create_directories` skips exactly those candidates for
which the text after the last `/` or the text after the last `\` of the
cleaned candidate contains a dot (for candidates using a single separator
kind this is the final path segment); every other candidate is passed to
idempotent directory creation under the root and reported. -/
theorem C3_create_directories_filter (root : List Str) (dirs : List Str) :
    (create_directories root dirs).1 =
      ((dirs.map cleanQuotes).filter (fun dp => !dirSkip dp)).map
        (fun dp => "Created directory: ".data ++ dp) ∧
    (create_directories root dirs).2 =
      ((dirs.map cleanQuotes).filter (fun dp => !dirSkip dp)).map (joinPath root) := by
  induction dirs with
  | nil => exact ⟨rfl, rfl⟩
  | cons d ds ih =>
    by_cases h : dirSkip (cleanQuotes d)
    · simpa [create_directories, h] using ih
    · simpa [create_directories, h] using ih

/-- C5: `write_file` is idempotent with respect to disk writes: starting
from any state in which the target file does not already hold the new
content, the first call performs exactly one disk write, and the second
call with the same (path, content) pair performs none, returns success
with the "already exists with same content, skipping" message, and leaves
the state (disk and registry) exactly as the first call left it. -/
theorem C5_write_file_idempotent (root : List Str) (st : WState) (fp code : Str)
    (h : lookA (writeFullPath root fp) st.fs ≠ some code) :
    (writeFile root .ok st fp code).2.2 = 1 ∧
    writeFile root .ok (writeFile root .ok st fp code).1 fp code =
      ((writeFile root .ok st fp code).1, (true, skipMsg (sanitizeFilePath fp)), 0) := by
  unfold writeFullPath at h
  cases hl : lookA (joinPath root (sanitizeFilePath fp)) st.fs with
  | none =>
    simp only [writeFile, hl]
    simp [lookA_setA_self]
  | some existing =>
    have hne : existing ≠ code := fun he => h (he ▸ hl)
    simp only [writeFile, hl]
    simp [hne, lookA_setA_self]

/-- Witness for C5 at a concrete fresh state. -/
theorem C5_write_file_idempotent_witness :
    (lookA (writeFullPath [] "a.py".data) (WState.mk [] []).fs ≠ some "x".data) ∧
    (writeFile [] .ok ⟨[], []⟩ "a.py".data "x".data).2.2 = 1 ∧
    writeFile [] .ok (writeFile [] .ok ⟨[], []⟩ "a.py".data "x".data).1
        "a.py".data "x".data =
      ((writeFile [] .ok ⟨[], []⟩ "a.py".data "x".data).1,
        (true, skipMsg (sanitizeFilePath "a.py".data)), 0) :=
  ⟨by decide,
    (C5_write_file_idempotent [] ⟨[], []⟩ "a.py".data "x".data (by decide)).1,
    (C5_write_file_idempotent [] ⟨[], []⟩ "a.py".data "x".data (by decide)).2⟩

/-- C6: when the operating-system calls inside `write_file` fail, the call
returns a failure result carrying the human-readable
"Error writing file ...: ..." message instead of raising, and the file
registry is left exactly as it was, whatever the failure left on disk. -/
theorem C6_write_file_error_frame (root : List Str) (st : WState) (fp code m : Str)
    (fsAfter : List (List Str × Str)) :
    (writeFile root (.fail m fsAfter) st fp code).1.registry = st.registry ∧
    (writeFile root (.fail m fsAfter) st fp code).2 =
      ((false, errMsg (sanitizeFilePath fp) m), 0) := by
  exact ⟨rfl, rfl⟩

/-- C9: when `write_file` takes the skip branch (the file already exists
with byte-identical content) the registry is not modified, the call
reports the skip, and consequently the continuation prompt rendered by
`generate_next_prompt` is unchanged — a file that is only ever skipped
never gains a registry entry and never appears in the rendered listing. -/
theorem C9_skip_preserves_registry (root : List Str) (st : WState) (fp code : Str)
    (h : lookA (writeFullPath root fp) st.fs = some code) :
    writeFile root .ok st fp code = (st, (true, skipMsg (sanitizeFilePath fp)), 0) ∧
    (writeFile root .ok st fp code).1.registry = st.registry ∧
    generate_next_prompt (writeFile root .ok st fp code).1.registry =
      generate_next_prompt st.registry := by
  unfold writeFullPath at h
  have hmain : writeFile root .ok st fp code =
      (st, (true, skipMsg (sanitizeFilePath fp)), 0) := by
    simp [writeFile, h]
  exact ⟨hmain, by rw [hmain], by rw [hmain]⟩

/-- Witness for C9 at a concrete state already holding the file. -/
theorem C9_skip_preserves_registry_witness :
    (lookA (writeFullPath [] "a.py".data) (WState.mk [(["a.py".data], "x".data)] []).fs
      = some "x".data) ∧
    writeFile [] .ok ⟨[(["a.py".data], "x".data)], []⟩ "a.py".data "x".data =
      (⟨[(["a.py".data], "x".data)], []⟩, (true, skipMsg (sanitizeFilePath "a.py".data)), 0) :=
  ⟨by decide,
    (C9_skip_preserves_registry [] ⟨[(["a.py".data], "x".data)], []⟩
      "a.py".data "x".data (by decide)).1⟩

theorem efsStep_some_eq (st : Bool) (l c : Str) (h : (efsStep st l).2 = some c) :
    c = cleanLine l ∧ (hasChar '/' c || hasChar '\\' c || !hasChar '.' c) = true := by
  simp only [efsStep] at h
  repeat' split at h
  all_goals simp_all

theorem efsGo_mem (ls : List Str) :
    ∀ st c, c ∈ efsGo st ls → ∃ l ∈ ls, ∃ st2, (efsStep st2 l).2 = some c := by
  induction ls with
  | nil => intro st c h; simp [efsGo] at h
  | cons l ls ih =>
    intro st c h
    simp only [efsGo, List.mem_append] at h
    cases h with
    | inl h1 =>
      rw [Option.mem_toList, Option.mem_def] at h1
      exact ⟨l, List.mem_cons_self l ls, st, h1⟩
    | inr h2 =>
      obtain ⟨l2, hl2, st2, hsome⟩ := ih _ _ h2
      exact ⟨l2, List.mem_cons_of_mem l hl2, st2, hsome⟩

/-- C4: the claim (like the spec) says the tree-drawing glyphs are
stripped in structure mode and candidates never contain them, but the
replace targets in the source are encoding-corrupted (mojibake) forms of
the glyph strings, so a genuine box-drawing connector is never stripped:
on the structure line `└── src/app` the emitted candidate still contains
`└── `, while the corrupted form is what actually gets removed. -/
theorem C4_glyph_not_stripped :
    extract_file_structure "directory structure\n└── src/app".data
      = ["└── src/app".data] ∧
    hasSub "└── ".data "└── src/app".data = true ∧
    cleanLine ("‚îî‚îÄ‚îÄ src".data) = "src".data := by
  decide

/-- C7: for every input text, every candidate emitted by
`extract_file_structure` either contains a path separator (`/` or `\`)
or contains no dot at all. -/
theorem C7_no_dotted_leaf (text c : Str) (h : c ∈ extract_file_structure text) :
    (hasChar '/' c || hasChar '\\' c || !hasChar '.' c) = true := by
  obtain ⟨l, _, st2, hsome⟩ := efsGo_mem (splitC '\n' text) false c h
  exact (efsStep_some_eq st2 l c hsome).2

/-- Witness for C7 at a concrete structure section. -/
theorem C7_no_dotted_leaf_witness :
    "src/app".data ∈ extract_file_structure "project structure\nsrc/app".data ∧
    (hasChar '/' "src/app".data || hasChar '\\' "src/app".data ||
      !hasChar '.' "src/app".data) = true :=
  ⟨by decide,
    C7_no_dotted_leaf "project structure\nsrc/app".data "src/app".data (by decide)⟩

theorem pbGoIdx_map_snd (ls : List Str) :
    ∀ i st, (pbGoIdx i st ls).map Prod.snd = pbGo st ls := by
  induction ls with
  | nil => intro i st; rfl
  | cons l ls ih =>
    intro i st
    simp only [pbGoIdx, pbGo, List.map_append, List.map_map, ih]
    cases (pbStep st l).2 <;> simp [Option.toList]

theorem pbGoIdx_lb (ls : List Str) :
    ∀ i st j b, (j, b) ∈ pbGoIdx i st ls → i ≤ j := by
  induction ls with
  | nil => intro i st j b h; simp [pbGoIdx] at h
  | cons l ls ih =>
    intro i st j b h
    simp only [pbGoIdx, List.mem_append, List.mem_map] at h
    rcases h with ⟨b2, _, heq⟩ | h2
    · exact le_of_eq (congrArg Prod.fst heq)
    · exact Nat.le_of_succ_le (ih (i + 1) (pbStep st l).1 j b h2)

theorem pbGoIdx_pairwise (ls : List Str) :
    ∀ i st, List.Pairwise (fun a b => a.1 < b.1) (pbGoIdx i st ls) := by
  induction ls with
  | nil => intro i st; exact List.Pairwise.nil
  | cons l ls ih =>
    intro i st
    simp only [pbGoIdx]
    rw [List.pairwise_append]
    refine ⟨?_, ih (i + 1) (pbStep st l).1, ?_⟩
    · cases (pbStep st l).2 <;> simp [Option.toList]
    · intro a ha b hb
      simp only [List.mem_map] at ha
      obtain ⟨blk, _, haeq⟩ := ha
      obtain ⟨j, b2⟩ := b
      have hj : i + 1 ≤ j := pbGoIdx_lb ls (i + 1) (pbStep st l).1 j b2 hb
      have ha1 : a.1 = i := (congrArg Prod.fst haeq).symm
      simp only [ha1]
      exact Nat.lt_of_succ_le hj

/-- C8: the code-block extractor preserves source order: tagging every
emitted block with the index of the line that completes it, the tagged run
erases to `parse_code_blocks`, and the tags are strictly increasing along
the output, so blocks occupying earlier text positions appear earlier in
the output list. -/
theorem C8_source_order (text : Str) :
    (parseCodeBlocksIdx text).map Prod.snd = parse_code_blocks text ∧
    List.Pairwise (fun a b => a.1 < b.1) (parseCodeBlocksIdx text) :=
  ⟨pbGoIdx_map_snd (splitC '\n' text) 0 pbInit,
    pbGoIdx_pairwise (splitC '\n' text) 0 pbInit⟩

theorem splitP_ne_nil (p : Char → Bool) (s : Str) : splitP p s ≠ [] := by
  cases s with
  | nil => simp [splitP]
  | cons c cs =>
    simp only [splitP]
    by_cases hp : p c = true
    · simp [hp]
    · simp only [hp]
      cases splitP p cs <;> simp

theorem splitP_sound (p : Char → Bool) (s : Str) :
    ∀ l ∈ splitP p s, ∀ c ∈ l, p c = false := by
  induction s with
  | nil =>
    intro l hl c hc
    simp [splitP] at hl
    subst hl
    simp at hc
  | cons a s ih =>
    intro l hl c hc
    simp only [splitP] at hl
    split at hl
    · rcases List.mem_cons.mp hl with h1 | h1
      · subst h1; simp at hc
      · exact ih l h1 c hc
    · rename_i hp
      split at hl
      · rename_i hsp
        exact absurd hsp (splitP_ne_nil p s)
      · rename_i t ts hsp
        rcases List.mem_cons.mp hl with h1 | h1
        · subst h1
          rcases List.mem_cons.mp hc with h2 | h2
          · subst h2; simpa using hp
          · exact ih t (hsp ▸ List.mem_cons_self t ts) c h2
        · exact ih l (hsp ▸ List.mem_cons_of_mem t h1) c hc

theorem hasChar_false_iff (c : Char) (s : Str) :
    hasChar c s = false ↔ ∀ x ∈ s, x ≠ c := by
  induction s with
  | nil => simp [hasChar]
  | cons a s ih => simp [hasChar, ih]

theorem splitP_app (p : Char → Bool) (x : Char) (b : Str) (a : Str)
    (hx : p x = true) (ha : ∀ c ∈ a, p c = false) :
    splitP p (a ++ x :: b) = a :: splitP p b := by
  induction a with
  | nil => simp [splitP, hx]
  | cons c a2 ih =>
    have hc : p c = false := ha c (List.mem_cons_self c a2)
    have ha2 : ∀ d ∈ a2, p d = false := fun d hd => ha d (List.mem_cons_of_mem c hd)
    simp only [List.cons_append, splitP, hc, Bool.false_eq_true, if_false,
      List.append_eq, ih ha2]

theorem joinNL_append (a b : List Str) : joinNL (a ++ b) = joinNL a ++ joinNL b := by
  induction a with
  | nil => rfl
  | cons l a2 ih => simp [joinNL, ih]

theorem splitC_joinNL (ms : List Str) (h : ∀ m ∈ ms, hasChar '\n' m = false) :
    splitC '\n' (joinNL ms) = ms ++ [[]] := by
  induction ms with
  | nil => rfl
  | cons m ms2 ih =>
    have hm : ∀ c ∈ m, (fun c => decide (c = '\n')) c = false := by
      intro c hc
      have := (hasChar_false_iff '\n' m).mp (h m (List.mem_cons_self m ms2)) c hc
      simpa using this
    have hms2 : ∀ m2 ∈ ms2, hasChar '\n' m2 = false :=
      fun m2 hm2 => h m2 (List.mem_cons_of_mem m hm2)
    show splitP (fun c => decide (c = '\n')) (m ++ '\n' :: joinNL ms2) = (m :: ms2) ++ [[]]
    rw [splitP_app (fun c => decide (c = '\n')) '\n' (joinNL ms2) m (by simp) hm]
    have := ih hms2
    simp only [splitC] at this
    rw [this]
    rfl

theorem pbStep_toggle (st : PBState) (line : Str) (h : hasSub tbt line = true) :
    (pbStep st line).1.inBlock = !st.inBlock := by
  cases hib : st.inBlock <;> simp [pbStep, h, hib]

theorem pbStep_code_inv (st : PBState) (line : Str)
    (hline : hasChar '\n' line = false)
    (hcur : ∃ ms, st.curCode = joinNL ms ∧
      ∀ m ∈ ms, hasSub tbt m = false ∧ hasChar '\n' m = false) :
    (∃ ms, (pbStep st line).1.curCode = joinNL ms ∧
      ∀ m ∈ ms, hasSub tbt m = false ∧ hasChar '\n' m = false) ∧
    (∀ b, (pbStep st line).2 = some b →
      ∃ ms, b.code = joinNL ms ∧
        ∀ m ∈ ms, hasSub tbt m = false ∧ hasChar '\n' m = false) := by
  cases hib : st.inBlock with
  | false =>
    cases hsub : hasSub tbt line with
    | false =>
      cases hhint : hintCond line with
      | false =>
        exact ⟨by simpa [pbStep, hib, hsub, hhint] using hcur,
          fun b hb => by simp [pbStep, hib, hsub, hhint] at hb⟩
      | true =>
        exact ⟨by simpa [pbStep, hib, hsub, hhint] using hcur,
          fun b hb => by simp [pbStep, hib, hsub, hhint] at hb⟩
    | true =>
      exact ⟨by simpa [pbStep, hib, hsub] using hcur,
        fun b hb => by simp [pbStep, hib, hsub] at hb⟩
  | true =>
    cases hsub : hasSub tbt line with
    | true =>
      constructor
      · exact ⟨[], by simp [pbStep, hib, hsub, joinNL], by simp⟩
      · intro b hb
        simp only [pbStep, hib, hsub, Bool.not_true, Bool.false_and, Bool.and_self,
          Bool.true_and, Bool.and_true, Bool.false_eq_true, if_false, if_true] at hb
        split at hb
        · obtain ⟨ms, hc, hp⟩ := hcur
          simp only [Option.some.injEq] at hb
          subst hb
          exact ⟨ms, hc, hp⟩
        · simp at hb
    | false =>
      obtain ⟨ms, hc, hp⟩ := hcur
      constructor
      · refine ⟨ms ++ [line], ?_, ?_⟩
        · simp [pbStep, hib, hsub, hc, joinNL_append, joinNL]
        · intro m hm
          rcases List.mem_append.mp hm with hm1 | hm2
          · exact hp m hm1
          · simp at hm2
            subst hm2
            exact ⟨hsub, hline⟩
      · intro b hb
        simp [pbStep, hib, hsub] at hb

theorem pbGo_code_inv (ls : List Str) :
    ∀ st, (∀ l ∈ ls, hasChar '\n' l = false) →
      (∃ ms, st.curCode = joinNL ms ∧
        ∀ m ∈ ms, hasSub tbt m = false ∧ hasChar '\n' m = false) →
      ∀ b ∈ pbGo st ls,
        ∃ ms, b.code = joinNL ms ∧
          ∀ m ∈ ms, hasSub tbt m = false ∧ hasChar '\n' m = false := by
  induction ls with
  | nil =>
    intro st _ _ b hb
    simp [pbGo] at hb
  | cons l ls ih =>
    intro st hls hcur b hb
    have hl : hasChar '\n' l = false := hls l (List.mem_cons_self l ls)
    have hls2 : ∀ l2 ∈ ls, hasChar '\n' l2 = false :=
      fun l2 h2 => hls l2 (List.mem_cons_of_mem l h2)
    have hstep := pbStep_code_inv st l hl hcur
    simp only [pbGo, List.mem_append] at hb
    rcases hb with hb1 | hb2
    · rw [Option.mem_toList, Option.mem_def] at hb1
      exact hstep.2 b hb1
    · exact ih (pbStep st l).1 hls2 hstep.1 b hb2

/-- C10: in `parse_code_blocks`, any line containing a triple-backtick
sequence anywhere toggles the scanner between outside-block and
inside-block (in particular, a content line that merely mentions the fence
inline closes the current block), and no such line is ever included in an
emitted block's content: every line of every emitted block's code is free
of the fence sequence. -/
theorem C10_fence_toggle :
    (∀ (st : PBState) (line : Str), hasSub tbt line = true →
        (pbStep st line).1.inBlock = !st.inBlock) ∧
    (∀ (text : Str) (b : CodeBlock), b ∈ parse_code_blocks text →
        ∀ l ∈ splitC '\n' b.code, hasSub tbt l = false) := by
  constructor
  · exact pbStep_toggle
  · intro text b hb l hl
    have hlines : ∀ l2 ∈ splitC '\n' text, hasChar '\n' l2 = false := by
      intro l2 h2
      exact (hasChar_false_iff '\n' l2).mpr
        (fun x hx => by simpa using splitP_sound _ text l2 h2 x hx)
    obtain ⟨ms, hcode, hprop⟩ :=
      pbGo_code_inv (splitC '\n' text) pbInit hlines ⟨[], rfl, by simp⟩ b hb
    rw [hcode, splitC_joinNL ms (fun m hm => (hprop m hm).2)] at hl
    rcases List.mem_append.mp hl with hin | hlast
    · exact (hprop l hin).1
    · simp at hlast
      subst hlast
      rfl

/-- Witness for C10 at a concrete response text and a concrete content
line of the block it emits. -/
theorem C10_fence_toggle_witness :
    (hasSub tbt "mentions ``` inline".data = true ∧
      (pbStep ⟨true, some "a.py".data, "x\n".data, []⟩ "mentions ``` inline".data).1.inBlock
        = !true) ∧
    (CodeBlock.mk (some "a.py".data) "code\n".data ∈
        parse_code_blocks "a.py\n```\ncode\n```".data ∧
      "code".data ∈ splitC '\n' (CodeBlock.mk (some "a.py".data) "code\n".data).code ∧
      hasSub tbt "code".data = false) :=
  ⟨⟨by decide,
      C10_fence_toggle.1 ⟨true, some "a.py".data, "x\n".data, []⟩
        "mentions ``` inline".data (by decide)⟩,
    ⟨by decide, by decide,
      C10_fence_toggle.2 "a.py\n```\ncode\n```".data
        (CodeBlock.mk (some "a.py".data) "code\n".data) (by decide)
        "code".data (by decide)⟩⟩
